import Mathlib

/-!
Shallow embedding of the automata core of the neolum-automata-lab repository
(the `@/lib/automata` module used by `src/pages/Index.tsx`), together with
theorems settling the specification claims about it.

TypeScript `Set<string>` values are modelled as insertion-ordered duplicate-free
`List String` values (JavaScript sets iterate in insertion order).  TypeScript
`Map` values are modelled as insertion-ordered association lists.  `while`
loops are modelled as fuel-indexed structural recursions; in each case the fuel
supplied by the wrapper is an upper bound on the number of iterations the
JavaScript loop can perform (the loop tests its own exit condition before any
fuel is consumed, so the fuel never changes the computed value).
-/

namespace AutomataLab

/-- `State` record from the source: `{ id, isStart, isAccept }`. -/
structure State where
  id : String
  isStart : Bool
  isAccept : Bool
deriving Repr, DecidableEq

/-- `Transition` record from the source: `{ from, to, symbol }` (`from` is a
Lean keyword, so the field is called `from'`). -/
structure Transition where
  from' : String
  to' : String
  symbol : String
deriving Repr, DecidableEq

/-- `Automaton` record from the source: `{ states, transitions, alphabet }`. -/
structure Automaton where
  states : List State
  transitions : List Transition
  alphabet : List String
deriving Repr, DecidableEq

/-- JavaScript `Set.add`: append the element if it is not already present. -/
def setAddL (l : List String) (x : String) : List String :=
  if l.contains x then l else l ++ [x]

/-- JavaScript `new Set(iterable)` on a list: keep first occurrences, in order. -/
def jsSetOf (l : List String) : List String :=
  l.foldl setAddL []

/-- Lexicographic comparison of characters lists by code point, the order used
by JavaScript's default `Array.prototype.sort` on the (BMP) strings that occur
here. -/
def charListLe : List Char → List Char → Bool
  | [], _ => true
  | _ :: _, [] => false
  | a :: as, b :: bs =>
      if a.val < b.val then true
      else if b.val < a.val then false
      else charListLe as bs

/-- String comparison used for sorting state-id sets. -/
def strLe (a b : String) : Bool :=
  charListLe a.data b.data

/-- Insertion into a sorted list, used to model `Array.prototype.sort`. -/
def insertSorted (x : String) : List String → List String
  | [] => [x]
  | y :: ys => if strLe x y then x :: y :: ys else y :: insertSorted x ys

/-- `[...set].sort()` from the source (the elements are distinct, so any
sorting algorithm produces the same list). -/
def sortJS (l : List String) : List String :=
  l.foldl (fun acc x => insertSorted x acc) []

/-- `.join(',')` from the source. -/
def joinComma (l : List String) : String :=
  String.intercalate "," l

/-- `[...set].sort().join(',')` — the raw subset key, without the `∅` default. -/
def keyOfRaw (set : List String) : String :=
  joinComma (sortJS set)

/-- `[...set].sort().join(',') || '∅'` — subset key with the `∅` default used
for dequeued and successor subsets in `nfaToDFA`. -/
def keyOf (set : List String) : String :=
  let k := keyOfRaw set
  if k == "" then "∅" else k

/-- `states.some(s => set.has(s.id) && s.isAccept)` from `nfaToDFA`. -/
def anyAccept (states : List State) (set : List String) : Bool :=
  states.any (fun s => set.contains s.id && s.isAccept)

/-! ### Epsilon closure (`epsilonClosure` in the source)

The source maintains a `closure` set and a `stack` (a JavaScript array popped
from its end).  The stack is modelled reversed, so the list head is the next
element to be popped.  Each iteration pops one element, so the number of
iterations is bounded by the initial stack length plus the number of elements
ever pushed; pushed elements are `λ`-transition targets that are new to
`closure`, so the loop performs at most `|stack₀| + |transitions|` iterations,
which is the fuel the wrapper supplies. -/

/-- The `forEach` body: for each target, if it is not yet in the closure, add
it to the closure (at the end) and push it on the stack. -/
def addTargets : List String → List String → List String → List String × List String
  | closure, stack, [] => (closure, stack)
  | closure, stack, x :: xs =>
      if closure.contains x then addTargets closure stack xs
      else addTargets (closure ++ [x]) (x :: stack) xs

/-- The `while (stack.length > 0)` loop of `epsilonClosure`. -/
def closureLoop (transitions : List Transition) : Nat → List String → List String → List String
  | _, closure, [] => closure
  | 0, closure, _ :: _ => closure
  | fuel + 1, closure, s :: stack =>
      let targets :=
        ((transitions.filter (fun t => t.from' == s && t.symbol == "λ")).map (fun t => t.to'))
      let r := addTargets closure stack targets
      closureLoop transitions fuel r.1 r.2

/-- `epsilonClosure(states, transitions)` from the source.  The parameter is a
JavaScript `Set`, modelled by deduplicating the list (`new Set(states)` and the
spread `[...states]` both iterate that set in insertion order). -/
def epsilonClosure (states : List String) (transitions : List Transition) : List String :=
  let c0 := jsSetOf states
  closureLoop transitions (c0.length + transitions.length) c0 c0.reverse

/-! ### NFA-λ → NFA (`nfaLambdaToNFA` in the source) -/

/-- Inner `forEach`: fold the epsilon closure of a transition target into the
`reachable` set. -/
def addReach (T : List Transition) (racc : List String) (t : Transition) : List String :=
  (epsilonClosure [t.to'] T).foldl setAddL racc

/-- The `reachable` set computed for one state closure and one symbol. -/
def reachFor (T : List Transition) (closure : List String) (symbol : String) : List String :=
  closure.foldl (fun racc s =>
    (T.filter (fun t => t.from' == s && t.symbol == symbol)).foldl (addReach T) racc) []

/-- `if (!newTransitions.some(...)) newTransitions.push(...)` from the source. -/
def addNewTrans (sid symbol : String) (acc : List Transition) (r : String) : List Transition :=
  if acc.any (fun t => t.from' == sid && t.to' == r && t.symbol == symbol) then acc
  else acc ++ [⟨sid, r, symbol⟩]

/-- The `hasAcceptInClosure` test of `nfaLambdaToNFA`:
`[...closure].some(id => states.find(st => st.id === id)?.isAccept)`. -/
def acceptInClosure (states : List State) (T : List Transition) (sid : String) : Bool :=
  (epsilonClosure [sid] T).any (fun i =>
    (((states.find? (fun st => st.id == i)).map (fun st => st.isAccept)).getD false))

/-- `nfaLambdaToNFA(nfaLambda)` from the source. -/
def nfaLambdaToNFA (nfaLambda : Automaton) : Automaton :=
  let T := nfaLambda.transitions
  let newTransitions :=
    nfaLambda.states.foldl (fun acc state =>
      let closure := epsilonClosure [state.id] T
      nfaLambda.alphabet.foldl (fun acc2 symbol =>
        (reachFor T closure symbol).foldl (addNewTrans state.id symbol) acc2) acc) []
  let newStates := nfaLambda.states.map (fun s =>
    { s with isAccept := s.isAccept || acceptInClosure nfaLambda.states T s.id })
  ⟨newStates, newTransitions, nfaLambda.alphabet⟩

/-! ### NFA → DFA (`nfaToDFA` in the source)

The worklist loop dequeues one subset per iteration; every enqueued subset is
registered under a key new to `dfaStates`, and all keys are (sorted, joined)
subsets of the finitely many state ids occurring in the automaton, so the
number of iterations is finite and bounded by `2 ^ (|transitions| + |states| + 1)`.
The wrapper supplies one more than that bound as fuel; since the loop checks
queue emptiness before consuming fuel, the fuel never alters the result. -/

/-- `dfaStates.has(key)` on the association-list model of the `Map`. -/
def hasKey (m : List (String × State)) (k : String) : Bool :=
  m.any (fun p => p.1 == k)

/-- The successor subset for a dequeued subset and one symbol. -/
def nextSetFor (transitions : List Transition) (currentSet : List String) (symbol : String) :
    List String :=
  currentSet.foldl (fun acc stateId =>
    (transitions.filter (fun t => t.from' == stateId && t.symbol == symbol)).foldl
      (fun acc2 t => setAddL acc2 t.to') acc) []

/-- Body of the `alphabet.forEach(symbol => ...)` inside the worklist loop. -/
def dfaStep (states : List State) (transitions : List Transition)
    (currentSet : List String) (currentKey : String)
    (acc : List (String × State) × List Transition × List (List String)) (symbol : String) :
    List (String × State) × List Transition × List (List String) :=
  let dfaStates := acc.1
  let dfaTrans := acc.2.1
  let queue := acc.2.2
  let nextSet := nextSetFor transitions currentSet symbol
  let nextKey := keyOf nextSet
  let r :=
    if !hasKey dfaStates nextKey && decide (0 < nextSet.length) then
      (dfaStates ++ [(nextKey, ⟨nextKey, false, anyAccept states nextSet⟩)], queue ++ [nextSet])
    else (dfaStates, queue)
  let dfaTrans' :=
    if decide (0 < nextSet.length) then dfaTrans ++ [⟨currentKey, nextKey, symbol⟩] else dfaTrans
  (r.1, dfaTrans', r.2)

/-- The `while (queue.length > 0)` worklist loop of `nfaToDFA`; the three
arguments after the fuel are the mutable `dfaStates`, `dfaTransitions` and
`queue` variables of the source. -/
def dfaLoop (states : List State) (transitions : List Transition) (alphabet : List String) :
    Nat → List (String × State) → List Transition → List (List String) →
    List (String × State) × List Transition
  | _, dfaStates, dfaTrans, [] => (dfaStates, dfaTrans)
  | 0, dfaStates, dfaTrans, _ :: _ => (dfaStates, dfaTrans)
  | fuel + 1, dfaStates, dfaTrans, currentSet :: queue =>
      let currentKey := keyOf currentSet
      let r := alphabet.foldl (dfaStep states transitions currentSet currentKey)
        (dfaStates, dfaTrans, queue)
      dfaLoop states transitions alphabet fuel r.1 r.2.1 r.2.2

/-- The `stateMapping` of the renaming pass: `q0`, `q1`, … in `dfaStates`
insertion order. -/
def renameMapping (dfaStates : List (String × State)) : List (String × String) :=
  dfaStates.enum.map (fun p => (p.2.1, "q" ++ toString p.1))

/-- `stateMapping.get(k) || k` from the renaming pass. -/
def renameLook (dfaStates : List (String × State)) (k : String) : String :=
  (((renameMapping dfaStates).find? (fun p => p.1 == k)).map (fun p => p.2)).getD k

/-- The final renaming pass of `nfaToDFA`. -/
def renameAll (dfaStates : List (String × State)) (dfaTrans : List Transition) :
    List State × List Transition :=
  (dfaStates.map (fun p => { p.2 with id := renameLook dfaStates p.2.id }),
   dfaTrans.map (fun t =>
     { t with from' := renameLook dfaStates t.from', to' := renameLook dfaStates t.to' }))

/-- `nfaToDFA(nfa)` from the source. -/
def nfaToDFA (nfa : Automaton) : Automaton :=
  match nfa.states.find? (fun s => s.isStart) with
  | none => ⟨[], [], nfa.alphabet⟩
  | some startState =>
      let startSet := [startState.id]
      let startSetKey := keyOfRaw startSet
      let st0 : List (String × State) :=
        [(startSetKey,
          ⟨if startSetKey == "" then "∅" else startSetKey, true, anyAccept nfa.states startSet⟩)]
      let r := dfaLoop nfa.states nfa.transitions nfa.alphabet
        (2 ^ (nfa.transitions.length + nfa.states.length + 1) + 1) st0 [] [startSet]
      let rn := renameAll r.1 r.2
      ⟨rn.1, rn.2, nfa.alphabet⟩

/-! ### Regex → NFA-λ (`regexToNFALambda` in the source)

The parser threads the shared state counter explicitly.  Fragment `start` and
`accept` are state ids; the flag mutations the source performs on the shared
`State` objects are modelled by updating the (globally unique) id inside the
fragment's state list.  The recursion is fuelled: every recursive call of the
loop/parser works on a strictly shorter character list, so the recursion depth
is at most the expression length and the wrapper's fuel `length + 1` is never
exhausted. -/

/-- An in-progress Thompson fragment (`NFAFragment` in the source); `start` and
`accept` hold the ids of the designated states. -/
structure NFAFragment where
  start : String
  accept : String
  states : List State
  transitions : List Transition
deriving Repr, DecidableEq

/-- A token of the parser loop: a bare literal character or a built fragment. -/
inductive Token where
  | lit (c : Char)
  | frag (f : NFAFragment)
deriving Repr, DecidableEq

/-- `newState` from the source: fresh id `q<counter>`. -/
def newState (isStart isAccept : Bool) (cnt : Nat) : State × Nat :=
  (⟨"q" ++ toString cnt, isStart, isAccept⟩, cnt + 1)

/-- `nfa.start.isStart = false`, applied to the state list. -/
def clearStart (sid : String) (states : List State) : List State :=
  states.map (fun s => if s.id == sid then { s with isStart := false } else s)

/-- `nfa.accept.isAccept = false`, applied to the state list. -/
def clearAccept (sid : String) (states : List State) : List State :=
  states.map (fun s => if s.id == sid then { s with isAccept := false } else s)

/-- `createBasicNFA(symbol)` from the source. -/
def createBasicNFA (symbol : String) (cnt : Nat) : NFAFragment × Nat :=
  let r1 := newState true false cnt
  let r2 := newState false true r1.2
  (⟨r1.1.id, r2.1.id, [r1.1, r2.1], [⟨r1.1.id, r2.1.id, symbol⟩]⟩, r2.2)

/-- `concatenate(nfa1, nfa2)` from the source. -/
def concatenate (nfa1 nfa2 : NFAFragment) : NFAFragment :=
  ⟨nfa1.start, nfa2.accept,
   clearAccept nfa1.accept nfa1.states ++ clearStart nfa2.start nfa2.states,
   nfa1.transitions ++ nfa2.transitions ++ [⟨nfa1.accept, nfa2.start, "λ"⟩]⟩

/-- `union(nfa1, nfa2)` from the source. -/
def union (nfa1 nfa2 : NFAFragment) (cnt : Nat) : NFAFragment × Nat :=
  let r1 := newState true false cnt
  let r2 := newState false true r1.2
  (⟨r1.1.id, r2.1.id,
    r1.1 :: (clearAccept nfa1.accept (clearStart nfa1.start nfa1.states) ++
             clearAccept nfa2.accept (clearStart nfa2.start nfa2.states)) ++ [r2.1],
    nfa1.transitions ++ nfa2.transitions ++
      [⟨r1.1.id, nfa1.start, "λ"⟩, ⟨r1.1.id, nfa2.start, "λ"⟩,
       ⟨nfa1.accept, r2.1.id, "λ"⟩, ⟨nfa2.accept, r2.1.id, "λ"⟩]⟩, r2.2)

/-- `kleeneStar(nfa)` from the source. -/
def kleeneStar (nfa : NFAFragment) (cnt : Nat) : NFAFragment × Nat :=
  let r1 := newState true false cnt
  let r2 := newState false true r1.2
  (⟨r1.1.id, r2.1.id,
    r1.1 :: clearAccept nfa.accept (clearStart nfa.start nfa.states) ++ [r2.1],
    nfa.transitions ++
      [⟨r1.1.id, nfa.start, "λ"⟩, ⟨r1.1.id, r2.1.id, "λ"⟩,
       ⟨nfa.accept, nfa.start, "λ"⟩, ⟨nfa.accept, r2.1.id, "λ"⟩]⟩, r2.2)

/-- `kleenePlus(nfa)` from the source (star without the bypass edge). -/
def kleenePlus (nfa : NFAFragment) (cnt : Nat) : NFAFragment × Nat :=
  let r1 := newState true false cnt
  let r2 := newState false true r1.2
  (⟨r1.1.id, r2.1.id,
    r1.1 :: clearAccept nfa.accept (clearStart nfa.start nfa.states) ++ [r2.1],
    nfa.transitions ++
      [⟨r1.1.id, nfa.start, "λ"⟩, ⟨nfa.accept, nfa.start, "λ"⟩,
       ⟨nfa.accept, r2.1.id, "λ"⟩]⟩, r2.2)

/-- `optional(nfa)` from the source (star without the loop-back edge). -/
def optional (nfa : NFAFragment) (cnt : Nat) : NFAFragment × Nat :=
  let r1 := newState true false cnt
  let r2 := newState false true r1.2
  (⟨r1.1.id, r2.1.id,
    r1.1 :: clearAccept nfa.accept (clearStart nfa.start nfa.states) ++ [r2.1],
    nfa.transitions ++
      [⟨r1.1.id, nfa.start, "λ"⟩, ⟨r1.1.id, r2.1.id, "λ"⟩,
       ⟨nfa.accept, r2.1.id, "λ"⟩]⟩, r2.2)

/-- `typeof t === 'string' ? createBasicNFA(t) : t` from the source. -/
def tokenToFrag (t : Token) (cnt : Nat) : NFAFragment × Nat :=
  match t with
  | Token.lit c => createBasicNFA (String.singleton c) cnt
  | Token.frag f => (f, cnt)

/-- The matching-parenthesis scan of the `'('` branch: depth counting from
depth 1, returning the interior and the remainder after the closing
parenthesis.  When the input ends with unmatched parentheses the source's
`expr.slice(i + 1, j - 1)` drops the final character, hence `dropLast`. -/
def scanGroup (acc : List Char) : Nat → List Char → List Char × List Char
  | _, [] => (acc.dropLast, [])
  | depth, c :: rest =>
      let depth' := if c = '(' then depth + 1 else if c = ')' then depth - 1 else depth
      if depth' = 0 then (acc, rest)
      else scanGroup (acc ++ [c]) depth' rest

/-- `tokens.reduce(...)` from the source: concatenate all tokens from the left,
converting bare literals to basic fragments. -/
def reduceTokens (tokens : List Token) (cnt : Nat) : Option NFAFragment × Nat :=
  tokens.foldl (fun acc t =>
    let r := tokenToFrag t acc.2
    match acc.1 with
    | none => (some r.1, r.2)
    | some a => (some (concatenate a r.1), r.2)) (none, cnt)

/-- Close out the loop: `tokens.reduce(...) || createBasicNFA('λ')`. -/
def finishTokens (tokens : List Token) (cnt : Nat) : NFAFragment × Nat :=
  match reduceTokens tokens cnt with
  | (some f, c) => (f, c)
  | (none, c) => createBasicNFA "λ" c

/-- The `while (i < expr.length)` loop of `parse`, including the recursive
sub-parses for groups and the right side of `|`.  (The source pushes `*`, `+`,
`?` with no preceding operand, `)` and every other non-space character as
literal tokens.) -/
def parseGo : Nat → List Char → List Token → Nat → NFAFragment × Nat
  | 0, _, _, cnt => createBasicNFA "λ" cnt
  | _ + 1, [], tokens, cnt => finishTokens tokens cnt
  | fuel + 1, c :: rest, tokens, cnt =>
      if c = '(' then
        let g := scanGroup [] 1 rest
        let r := if g.1.isEmpty then createBasicNFA "λ" cnt else parseGo fuel g.1 [] cnt
        parseGo fuel g.2 (tokens ++ [Token.frag r.1]) r.2
      else if c = '*' then
        match tokens.getLast? with
        | some last =>
            let r0 := tokenToFrag last cnt
            let r1 := kleeneStar r0.1 r0.2
            parseGo fuel rest (tokens.dropLast ++ [Token.frag r1.1]) r1.2
        | none => parseGo fuel rest (tokens ++ [Token.lit c]) cnt
      else if c = '+' then
        match tokens.getLast? with
        | some last =>
            let r0 := tokenToFrag last cnt
            let r1 := kleenePlus r0.1 r0.2
            parseGo fuel rest (tokens.dropLast ++ [Token.frag r1.1]) r1.2
        | none => parseGo fuel rest (tokens ++ [Token.lit c]) cnt
      else if c = '?' then
        match tokens.getLast? with
        | some last =>
            let r0 := tokenToFrag last cnt
            let r1 := optional r0.1 r0.2
            parseGo fuel rest (tokens.dropLast ++ [Token.frag r1.1]) r1.2
        | none => parseGo fuel rest (tokens ++ [Token.lit c]) cnt
      else if c = '|' then
        let l := reduceTokens tokens cnt
        let r := if rest.isEmpty then createBasicNFA "λ" l.2 else parseGo fuel rest [] l.2
        match l.1 with
        | some lf => union lf r.1 r.2
        | none => r
      else if c = ' ' then parseGo fuel rest tokens cnt
      else parseGo fuel rest (tokens ++ [Token.lit c]) cnt

/-- `parse(expr)` from the source: an empty expression builds a single epsilon
fragment, otherwise the token loop runs. -/
def parse (expr : List Char) (cnt : Nat) : NFAFragment × Nat :=
  if expr.isEmpty then createBasicNFA "λ" cnt
  else parseGo (expr.length + 1) expr [] cnt

/-- `regexToNFALambda(regex)` from the source. -/
def regexToNFALambda (regex : String) : Automaton :=
  let r := parse regex.data 0
  let alphabet :=
    jsSetOf ((r.1.transitions.map (fun t => t.symbol)).filter (fun s => !(s == "λ")))
  ⟨r.1.states, r.1.transitions, alphabet⟩

/-! ### String validation (`validateString` in the source) -/

/-- One `for (const symbol of input)` step; `none` records that the walk has
already rejected (the source returns `false` immediately). -/
def stepSymbol (dfa : Automaton) (cur : Option String) (symbol : Char) : Option String :=
  match cur with
  | none => none
  | some c =>
      match dfa.transitions.find?
          (fun t => t.from' == c && t.symbol == String.singleton symbol) with
      | none => none
      | some t => some t.to'

/-- `validateString(dfa, input)` from the source. -/
def validateString (dfa : Automaton) (input : String) : Bool :=
  match dfa.states.find? (fun s => s.isStart) with
  | none => false
  | some startState =>
      match input.data.foldl (stepSymbol dfa) (some startState.id) with
      | none => false
      | some cur =>
          (((dfa.states.find? (fun s => s.id == cur)).map (fun s => s.isAccept)).getD false)

/-! ### Edge-list ingestion (`parseEdgeList` in the source) -/

/-- JavaScript `\s` on the characters that can occur inside a line. -/
def isWs (c : Char) : Bool :=
  c == ' ' || c == '\t' || c == '\r' || c == '\x0b' || c == '\x0c' || c == ' '

/-- JavaScript `\s` including the line terminator, for `trim()`. -/
def isTrimWs (c : Char) : Bool :=
  isWs c || c == '\n'

/-- JavaScript `str.trim()`, at character level. -/
def jsTrim (s : String) : String :=
  String.mk
    (((s.data.dropWhile (fun c => isTrimWs c)).reverse.dropWhile (fun c => isTrimWs c)).reverse)

/-- JavaScript `str.split('\n')`, at character level. -/
def splitLines (cur : List Char) : List Char → List String
  | [] => [String.mk cur.reverse]
  | c :: rest =>
      if c == '\n' then String.mk cur.reverse :: splitLines [] rest
      else splitLines (c :: cur) rest

/-- Try to match the split delimiter `/\s*,\s*|\s+/` at the head of the list;
on success return the remainder after the (greedy) match.  The first
alternative matches exactly when the maximal whitespace run is followed by a
comma (also absorbing trailing whitespace); otherwise a nonempty whitespace run
matches the second alternative. -/
def delimFields (l : List Char) : Option (List Char) :=
  match l with
  | [] => none
  | c :: rest =>
      if c == ',' then some (rest.dropWhile (fun x => isWs x))
      else if isWs c then
        let afterWs := rest.dropWhile (fun x => isWs x)
        match afterWs with
        | ',' :: r2 => some (r2.dropWhile (fun x => isWs x))
        | _ => some afterWs
      else none

/-- `line.split(/\s*,\s*|\s+/)`: cut at each leftmost delimiter match. -/
def splitFields : Nat → List Char → List Char → List String
  | 0, cur, _ => [String.mk cur.reverse]
  | _ + 1, cur, [] => [String.mk cur.reverse]
  | fuel + 1, cur, c :: rest =>
      match delimFields (c :: rest) with
      | some r => String.mk cur.reverse :: splitFields fuel [] r
      | none => splitFields fuel (c :: cur) rest

/-- Try to match the split delimiter `/\s*,\s*/` at the head of the list (used
on the captured accept-state list); it matches exactly when the maximal
whitespace run is followed by a comma. -/
def delimComma (l : List Char) : Option (List Char) :=
  match l with
  | [] => none
  | c :: rest =>
      if c == ',' then some (rest.dropWhile (fun x => isWs x))
      else if isWs c then
        match rest.dropWhile (fun x => isWs x) with
        | ',' :: r2 => some (r2.dropWhile (fun x => isWs x))
        | _ => none
      else none

/-- `str.split(/\s*,\s*/)`. -/
def splitCommas : Nat → List Char → List Char → List String
  | 0, cur, _ => [String.mk cur.reverse]
  | _ + 1, cur, [] => [String.mk cur.reverse]
  | fuel + 1, cur, c :: rest =>
      match delimComma (c :: rest) with
      | some r => String.mk cur.reverse :: splitCommas fuel [] r
      | none => splitCommas fuel (c :: cur) rest

/-- Case-insensitive character comparison (ASCII, as the markers are ASCII). -/
def ciEq (a b : Char) : Bool :=
  a.toLower == b.toLower

/-- Does `marker` occur (case-insensitively) as a prefix of `l`? -/
def ciIsPrefix (marker : List Char) (l : List Char) : Bool :=
  match marker, l with
  | [], _ => true
  | _ :: _, [] => false
  | m :: ms, c :: cs => ciEq m c && ciIsPrefix ms cs

/-- `line.match(/<marker>\s*(.+)/i)`: find the leftmost occurrence of the
marker followed by at least one more character, and return the capture group
(everything after the marker and its following whitespace, backing off one
whitespace character when the remainder is all whitespace — `(.+)` must match
at least one character). -/
def matchCapture (marker : List Char) : List Char → Option String
  | [] => none
  | c :: rest =>
      if ciIsPrefix marker (c :: rest) then
        let after := (c :: rest).drop marker.length
        if after.isEmpty then matchCapture marker rest
        else
          let body := after.dropWhile (fun x => isWs x)
          if body.isEmpty then some (String.mk [after.getLast!])
          else some (String.mk body)
      else matchCapture marker rest

/-- `line.match(/accept:\s*(.+)/i) || line.match(/final:\s*(.+)/i)`. -/
def acceptDirective (line : String) : Option String :=
  match matchCapture "accept:".data line.data with
  | some capture => some capture
  | none => matchCapture "final:".data line.data

/-- State registration for the `from` end of a transition line:
`states.set(from, { id: from, isStart: index === 0 && !states.has(from), isAccept: false })`
guarded by `!states.has(from)`. -/
def registerFrom (states : List State) (idx : Nat) (sid : String) : List State :=
  if states.any (fun s => s.id == sid) then states
  else states ++ [⟨sid, decide (idx = 0), false⟩]

/-- State registration for the `to` end of a transition line. -/
def registerTo (states : List State) (sid : String) : List State :=
  if states.any (fun s => s.id == sid) then states
  else states ++ [⟨sid, false, false⟩]

/-- One transition line of `parseEdgeList` (lines with fewer than three fields
are skipped). -/
def edgeLine (acc : List State × List Transition × List String) (p : Nat × String) :
    List State × List Transition × List String :=
  let parts := splitFields ((jsTrim p.2).data.length + 1) [] (jsTrim p.2).data
  match parts with
  | f :: sym :: t :: _ =>
      let states := registerTo (registerFrom acc.1 p.1 f) t
      let transitions :=
        acc.2.1 ++ [⟨f, t, if sym == "e" || sym == "ε" then "λ" else sym⟩]
      let alphabet :=
        if !(sym == "λ") && !(sym == "e") && !(sym == "ε") then setAddL acc.2.2 sym
        else acc.2.2
      (states, transitions, alphabet)
  | _ => acc

/-- Mark the accept states named by one `accept:`/`final:` directive. -/
def markAccepts (states : List State) (line : String) : List State :=
  match acceptDirective line with
  | none => states
  | some capture =>
      (splitCommas (capture.data.length + 1) [] capture.data).foldl
        (fun sts s =>
          if sts.any (fun st => st.id == jsTrim s) then
            sts.map (fun st => if st.id == jsTrim s then { st with isAccept := true } else st)
          else sts) states

/-- `parseEdgeList(input)` from the source. -/
def parseEdgeList (input : String) : Automaton :=
  let lines := (splitLines [] (jsTrim input).data).filter (fun l => !(jsTrim l == ""))
  let r := lines.enum.foldl edgeLine ([], [], [])
  let stateArray :=
    match r.1 with
    | [] => []
    | s :: rest => { s with isStart := true } :: rest
  let stateArray2 := lines.foldl markAccepts stateArray
  let stateArray3 :=
    if !(stateArray2.any (fun s => s.isAccept)) then
      match stateArray2.getLast? with
      | some lastS => stateArray2.dropLast ++ [{ lastS with isAccept := true }]
      | none => stateArray2
    else stateArray2
  ⟨stateArray3, r.2.1, r.2.2⟩

/-! ### Predicates used to reason about the closure loop -/

/-- A state-id list is closed under epsilon edges: every `λ`-transition from a
member leads to a member. -/
def Closed (T : List Transition) (c : List String) : Prop :=
  ∀ t ∈ T, t.symbol = "λ" → t.from' ∈ c → t.to' ∈ c

/-- Loop invariant of `closureLoop`: members of the closure that are no longer
on the stack have already had their `λ`-successors added. -/
def ClosureInv (T : List Transition) (c st : List String) : Prop :=
  ∀ x ∈ c, x ∉ st → ∀ t ∈ T, t.symbol = "λ" → t.from' = x → t.to' ∈ c

/-- All `λ`-transition targets — every element the loop can ever add. -/
def lamTargets (T : List Transition) : List String :=
  (T.filter (fun t => t.symbol == "λ")).map (fun t => t.to')

/-- Number of possible additions still outside the closure; together with the
stack length this bounds the remaining loop iterations. -/
def cands (T : List Transition) (c : List String) : Nat :=
  ((lamTargets T).filter (fun x => !(c.contains x))).length

/-! ### Predicates used to reason about the subset-construction loop -/

/-- Two transitions do not collide on `(from, symbol)`. -/
def distinctFS (t1 t2 : Transition) : Prop :=
  t1.from' ≠ t2.from' ∨ t1.symbol ≠ t2.symbol

/-- The keys of the `dfaStates` map, in insertion order. -/
def keysOf (m : List (String × State)) : List String :=
  m.map (fun p => p.1)

/-- Invariant of the subset-construction worklist loop. -/
structure DFALoopInv (dfaStates : List (String × State)) (dfaTrans : List Transition)
    (queue : List (List String)) : Prop where
  keysNodup : (keysOf dfaStates).Nodup
  queueKeys : ∀ q ∈ queue, keyOf q ∈ keysOf dfaStates
  queueNodup : (queue.map keyOf).Nodup
  transFrom : ∀ t ∈ dfaTrans, t.from' ∈ keysOf dfaStates
  transTo : ∀ t ∈ dfaTrans, t.to' ∈ keysOf dfaStates
  unprocessed : ∀ t ∈ dfaTrans, ∀ q ∈ queue, t.from' ≠ keyOf q
  det : dfaTrans.Pairwise distinctFS

/-- Invariant carried through the per-symbol fold while one subset (with key
`currentKey`) is being processed; `syms` are the symbols still to process. -/
structure DFAStepInv (currentKey : String) (syms : List String)
    (dfaStates : List (String × State)) (dfaTrans : List Transition)
    (queue : List (List String))
    extends DFALoopInv dfaStates dfaTrans queue : Prop where
  curMem : currentKey ∈ keysOf dfaStates
  curNotQueued : ∀ q ∈ queue, keyOf q ≠ currentKey
  freshSyms : ∀ t ∈ dfaTrans, t.from' = currentKey → t.symbol ∉ syms

/-! ### Claim theorems -/

/-- C1: the claim demands that a malformed regex (here `"(a"`, which has an
unbalanced parenthesis) surface as a distinct catchable failure.  The code has
no failure path at all: on `"(a"` it silently returns a fabricated automaton —
the two-state epsilon automaton, identical to the one produced for the empty
regex, with the literal `a` dropped. -/
theorem c1_malformed_regex_returns_fabricated_automaton :
    regexToNFALambda "(a" =
      ⟨[⟨"q0", true, false⟩, ⟨"q1", false, true⟩], [⟨"q0", "q1", "λ"⟩], []⟩ ∧
    regexToNFALambda "(a" = regexToNFALambda "" := by
  constructor
  · decide
  · decide

set_option maxRecDepth 100000 in
/-- C2: for the regex `(a|b)*abb`, the full pipeline produces a DFA that
accepts `abb`, `aabb` and `babb` and rejects `ab`, `abba` and the empty
string. -/
theorem c2_regex_abb_pipeline :
    validateString (nfaToDFA (nfaLambdaToNFA (regexToNFALambda "(a|b)*abb"))) "abb" = true ∧
    validateString (nfaToDFA (nfaLambdaToNFA (regexToNFALambda "(a|b)*abb"))) "aabb" = true ∧
    validateString (nfaToDFA (nfaLambdaToNFA (regexToNFALambda "(a|b)*abb"))) "babb" = true ∧
    validateString (nfaToDFA (nfaLambdaToNFA (regexToNFALambda "(a|b)*abb"))) "ab" = false ∧
    validateString (nfaToDFA (nfaLambdaToNFA (regexToNFALambda "(a|b)*abb"))) "abba" = false ∧
    validateString (nfaToDFA (nfaLambdaToNFA (regexToNFALambda "(a|b)*abb"))) "" = false := by
  refine ⟨?_, ?_, ?_, ?_, ?_, ?_⟩ <;> decide

/-- C4 (counterexample): the claim says the empty regex produces a
single-state automaton; the code produces a two-state automaton (a start state
and a distinct accept state joined by one `λ` edge). -/
theorem c4_empty_regex_counterexample :
    (regexToNFALambda "").states.length = 2 ∧ ¬ (regexToNFALambda "").states.length = 1 := by
  constructor
  · decide
  · decide

/-- After consuming one unmatched symbol the walk stays rejected. -/
theorem foldl_stepSymbol_none (dfa : Automaton) (l : List Char) :
    l.foldl (stepSymbol dfa) none = none := by
  induction l with
  | nil => rfl
  | cons c cs ih => simpa [stepSymbol] using ih

/-- C4 (amended): for the empty regex, `regexToNFALambda` produces a two-state
automaton — a start state and a distinct accept state joined by a single `λ`
edge — and the DFA derived from it via `nfaLambdaToNFA` and `nfaToDFA` accepts
only the empty string. -/
theorem c4_empty_regex_amended :
    regexToNFALambda "" =
      ⟨[⟨"q0", true, false⟩, ⟨"q1", false, true⟩], [⟨"q0", "q1", "λ"⟩], []⟩ ∧
    ∀ s : String,
      validateString (nfaToDFA (nfaLambdaToNFA (regexToNFALambda ""))) s = true ↔ s = "" := by
  refine ⟨by decide, ?_⟩
  intro s
  have hD : nfaToDFA (nfaLambdaToNFA (regexToNFALambda "")) =
      ⟨[⟨"q0", true, true⟩], [], []⟩ := by decide
  rw [hD]
  cases s with
  | mk data =>
      cases data with
      | nil => simp [validateString]
      | cons c cs =>
          simp [validateString, stepSymbol, foldl_stepSymbol_none, String.ext_iff]

/-- C6: when the input automaton has no start state, `nfaToDFA` returns the
empty automaton with the alphabet preserved. -/
theorem c6_no_start_state_empty_dfa (a : Automaton)
    (h : ∀ s ∈ a.states, s.isStart = false) :
    nfaToDFA a = ⟨[], [], a.alphabet⟩ := by
  have hf : a.states.find? (fun s => s.isStart) = none := by
    rw [List.find?_eq_none]
    intro s hs
    simp [h s hs]
  unfold nfaToDFA
  rw [hf]

/-- C6 witness: a concrete start-less automaton. -/
theorem c6_no_start_state_empty_dfa_witness :
    (∀ s ∈ (⟨[⟨"p", false, true⟩], [⟨"p", "p", "a"⟩], ["a"]⟩ : Automaton).states,
        s.isStart = false) ∧
    nfaToDFA ⟨[⟨"p", false, true⟩], [⟨"p", "p", "a"⟩], ["a"]⟩ = ⟨[], [], ["a"]⟩ :=
  ⟨by decide, c6_no_start_state_empty_dfa _ (by decide)⟩

/-- C7: the claim says an `accept:` line never contributes a transition, never
registers states and never adds to the alphabet.  A multi-id directive line
such as `accept: q0, q1` splits into three fields, so the code also treats it
as a transition line: it registers a bogus state `accept:`, records the
transition `accept: --q0--> q1`, and adds `q0` to the alphabet (while still
marking `q0` and `q1` as accept states). -/
theorem c7_accept_line_contributes_transition :
    parseEdgeList "q0, a, q1\naccept: q0, q1" =
      ⟨[⟨"q0", true, true⟩, ⟨"q1", false, true⟩, ⟨"accept:", false, false⟩],
       [⟨"q0", "q1", "a"⟩, ⟨"accept:", "q1", "q0"⟩],
       ["a", "q0"]⟩ := by
  decide

/-- C10: a degenerate automaton with no start state rejects every input
string. -/
theorem c10_no_start_state_rejects (a : Automaton) (input : String)
    (h : ∀ s ∈ a.states, s.isStart = false) :
    validateString a input = false := by
  have hf : a.states.find? (fun s => s.isStart) = none := by
    rw [List.find?_eq_none]
    intro s hs
    simp [h s hs]
  unfold validateString
  rw [hf]

/-! ### Correctness of the closure loop, leading to C8 -/

/-- Unfolding `addTargets` when the head target is already present. -/
theorem addTargets_cons_old (c st : List String) {y : String} (ys : List String) (h : y ∈ c) :
    addTargets c st (y :: ys) = addTargets c st ys := by
  simp [addTargets, h]

/-- Unfolding `addTargets` when the head target is new. -/
theorem addTargets_cons_new (c st : List String) {y : String} (ys : List String) (h : y ∉ c) :
    addTargets c st (y :: ys) = addTargets (c ++ [y]) (y :: st) ys := by
  simp [addTargets, h]

/-- Filtering with a stronger predicate yields a shorter list. -/
theorem length_filter_mono {p q : String → Bool} (h : ∀ y, p y = true → q y = true) :
    ∀ l : List String, (l.filter p).length ≤ (l.filter q).length := by
  intro l
  induction l with
  | nil => simp
  | cons a as ih =>
      by_cases hp : p a = true
      · simp [List.filter_cons, hp, h a hp]
        omega
      · simp only [List.filter_cons, Bool.not_eq_true] at hp ⊢
        rw [hp]
        by_cases hq : q a = true
        · simp [hq]; omega
        · simp only [Bool.not_eq_true] at hq
          rw [hq]
          simpa using ih

/-- Filtering with a strictly stronger predicate (witnessed at a member of the
list) yields a strictly shorter list. -/
theorem length_filter_strict {p q : String → Bool} (h : ∀ y, p y = true → q y = true) :
    ∀ (l : List String) (x : String), x ∈ l → p x = false → q x = true →
      (l.filter p).length + 1 ≤ (l.filter q).length := by
  intro l
  induction l with
  | nil => intro x hx; cases hx
  | cons a as ih =>
      intro x hx hpx hqx
      rcases List.mem_cons.mp hx with rfl | hmem
      · rw [List.filter_cons_of_neg (by simp [hpx]), List.filter_cons_of_pos (by simp [hqx])]
        simpa using length_filter_mono h as
      · by_cases hpa : p a = true
        · rw [List.filter_cons_of_pos (by simp [hpa]),
            List.filter_cons_of_pos (by simp [h a hpa])]
          simpa using ih x hmem hpx hqx
        · rw [List.filter_cons_of_neg (by simp [hpa])]
          by_cases hqa : q a = true
          · rw [List.filter_cons_of_pos (by simp [hqa])]
            have := ih x hmem hpx hqx
            simp only [List.length_cons]
            omega
          · rw [List.filter_cons_of_neg (by simp [hqa])]
            exact ih x hmem hpx hqx

/-- Adding a fresh element to the closure strictly decreases the count of
pending candidates. -/
theorem cands_append_lt (T : List Transition) (c : List String) (x : String)
    (hx : x ∈ lamTargets T) (hc : x ∉ c) :
    cands T (c ++ [x]) + 1 ≤ cands T c := by
  unfold cands
  refine length_filter_strict ?_ _ x hx (by simp) (by simp [hc])
  intro y hy
  simp at hy ⊢
  exact hy.1

/-- The closure component of `addTargets` only grows. -/
theorem addTargets_sub : ∀ (xs c st : List String), ∀ x ∈ c, x ∈ (addTargets c st xs).1 := by
  intro xs
  induction xs with
  | nil => intro c st x hx; simpa [addTargets] using hx
  | cons y ys ih =>
      intro c st x hx
      by_cases hcy : y ∈ c
      · rw [addTargets_cons_old c st ys hcy]
        exact ih c st x hx
      · rw [addTargets_cons_new c st ys hcy]
        exact ih _ _ x (List.mem_append_left _ hx)

/-- Every processed target ends up in the closure component of `addTargets`. -/
theorem addTargets_mem_targets :
    ∀ (xs c st : List String), ∀ x ∈ xs, x ∈ (addTargets c st xs).1 := by
  intro xs
  induction xs with
  | nil => intro c st x hx; cases hx
  | cons y ys ih =>
      intro c st x hx
      rcases List.mem_cons.mp hx with rfl | hmem
      · by_cases hcy : x ∈ c
        · rw [addTargets_cons_old c st ys hcy]
          exact addTargets_sub ys c st x hcy
        · rw [addTargets_cons_new c st ys hcy]
          exact addTargets_sub ys _ _ x (List.mem_append_right _ (by simp))
      · by_cases hcy : y ∈ c
        · rw [addTargets_cons_old c st ys hcy]
          exact ih c st x hmem
        · rw [addTargets_cons_new c st ys hcy]
          exact ih _ _ x hmem

/-- Elements of the closure component of `addTargets` come from the original
closure or from the target list. -/
theorem addTargets_closure_src :
    ∀ (xs c st : List String) (x : String), x ∈ (addTargets c st xs).1 → x ∈ c ∨ x ∈ xs := by
  intro xs
  induction xs with
  | nil => intro c st x hx; exact Or.inl (by simpa [addTargets] using hx)
  | cons y ys ih =>
      intro c st x hx
      by_cases hcy : y ∈ c
      · rw [addTargets_cons_old c st ys hcy] at hx
        rcases ih c st x hx with h | h
        · exact Or.inl h
        · exact Or.inr (List.mem_cons_of_mem _ h)
      · rw [addTargets_cons_new c st ys hcy] at hx
        rcases ih _ _ x hx with h | h
        · rcases List.mem_append.mp h with h1 | h1
          · exact Or.inl h1
          · simp only [List.mem_singleton] at h1
            subst h1
            exact Or.inr (List.mem_cons_self _ _)
        · exact Or.inr (List.mem_cons_of_mem _ h)

/-- The stack component of `addTargets` preserves existing entries. -/
theorem addTargets_stack_sub :
    ∀ (xs c st : List String), ∀ y ∈ st, y ∈ (addTargets c st xs).2 := by
  intro xs
  induction xs with
  | nil => intro c st y hy; simpa [addTargets] using hy
  | cons z zs ih =>
      intro c st y hy
      by_cases hcz : z ∈ c
      · rw [addTargets_cons_old c st zs hcz]
        exact ih c st y hy
      · rw [addTargets_cons_new c st zs hcz]
        exact ih _ _ y (List.mem_cons_of_mem _ hy)

/-- Elements newly added to the closure by `addTargets` are pushed on the
stack. -/
theorem addTargets_new_on_stack :
    ∀ (xs c st : List String) (x : String),
      x ∈ (addTargets c st xs).1 → x ∉ c → x ∈ (addTargets c st xs).2 := by
  intro xs
  induction xs with
  | nil => intro c st x hx hnx; exact absurd (by simpa [addTargets] using hx) hnx
  | cons y ys ih =>
      intro c st x hx hnx
      by_cases hcy : y ∈ c
      · rw [addTargets_cons_old c st ys hcy] at hx ⊢
        exact ih c st x hx hnx
      · rw [addTargets_cons_new c st ys hcy] at hx ⊢
        by_cases hxc : x ∈ c ++ [y]
        · rcases List.mem_append.mp hxc with h1 | h1
          · exact absurd h1 hnx
          · simp only [List.mem_singleton] at h1
            subst h1
            exact addTargets_stack_sub ys _ _ x (List.mem_cons_self _ _)
        · exact ih _ _ x hx hxc

/-- `addTargets` preserves duplicate-freeness of the closure. -/
theorem addTargets_nodup :
    ∀ (xs c st : List String), c.Nodup → (addTargets c st xs).1.Nodup := by
  intro xs
  induction xs with
  | nil => intro c st h; simpa [addTargets] using h
  | cons y ys ih =>
      intro c st h
      by_cases hcy : y ∈ c
      · rw [addTargets_cons_old c st ys hcy]
        exact ih c st h
      · rw [addTargets_cons_new c st ys hcy]
        refine ih _ _ ?_
        rw [List.nodup_append]
        refine ⟨h, by simp, ?_⟩
        intro a ha hay
        simp only [List.mem_singleton] at hay
        subst hay
        exact hcy ha

/-- `addTargets` is the identity when every target is already present. -/
theorem addTargets_fixed :
    ∀ (xs c st : List String), (∀ x ∈ xs, x ∈ c) → addTargets c st xs = (c, st) := by
  intro xs
  induction xs with
  | nil => intro c st _; rfl
  | cons y ys ih =>
      intro c st h
      rw [addTargets_cons_old c st ys (h y (List.mem_cons_self _ _))]
      exact ih c st fun x hx => h x (List.mem_cons_of_mem _ hx)

/-- `addTargets` does not increase the combined measure
`stack length + pending candidates`. -/
theorem addTargets_measure (T : List Transition) :
    ∀ (xs c st : List String), (∀ x ∈ xs, x ∈ lamTargets T) →
      (addTargets c st xs).2.length + cands T (addTargets c st xs).1 ≤
        st.length + cands T c := by
  intro xs
  induction xs with
  | nil => intro c st _; simp [addTargets]
  | cons y ys ih =>
      intro c st h
      by_cases hcy : y ∈ c
      · rw [addTargets_cons_old c st ys hcy]
        exact ih c st fun x hx => h x (List.mem_cons_of_mem _ hx)
      · rw [addTargets_cons_new c st ys hcy]
        have h1 := ih (c ++ [y]) (y :: st) fun x hx => h x (List.mem_cons_of_mem _ hx)
        have h2 := cands_append_lt T c y (h y (List.mem_cons_self _ _)) hcy
        simp only [List.length_cons] at h1
        omega

/-- A `λ`-transition from the popped state contributes its target to the
target list of that loop iteration. -/
theorem mem_targets_of_lam (T : List Transition) (s : String) (t : Transition)
    (ht : t ∈ T) (hsym : t.symbol = "λ") (hfrom : t.from' = s) :
    t.to' ∈ ((T.filter (fun u => u.from' == s && u.symbol == "λ")).map (fun u => u.to')) :=
  List.mem_map.mpr ⟨t, List.mem_filter.mpr ⟨ht, by simp [hsym, hfrom]⟩, rfl⟩

/-- Targets of one loop iteration are among all `λ`-targets. -/
theorem targets_sub_lam (T : List Transition) (s : String) :
    ∀ x ∈ ((T.filter (fun u => u.from' == s && u.symbol == "λ")).map (fun u => u.to')),
      x ∈ lamTargets T := by
  intro x hx
  rcases List.mem_map.mp hx with ⟨t, htf, rfl⟩
  rcases List.mem_filter.mp htf with ⟨htT, hb⟩
  simp only [Bool.and_eq_true, beq_iff_eq] at hb
  exact List.mem_map.mpr ⟨t, List.mem_filter.mpr ⟨htT, by simp [hb.2]⟩, rfl⟩

/-- The closure component only grows along the loop. -/
theorem closureLoop_sub (T : List Transition) :
    ∀ (f : Nat) (c st : List String), ∀ x ∈ c, x ∈ closureLoop T f c st := by
  intro f
  induction f with
  | zero =>
      intro c st x hx
      cases st with
      | nil => simpa [closureLoop] using hx
      | cons s rest => simpa [closureLoop] using hx
  | succ f ih =>
      intro c st x hx
      cases st with
      | nil => simpa [closureLoop] using hx
      | cons s rest =>
          simp only [closureLoop]
          exact ih _ _ x (addTargets_sub _ c rest x hx)

/-- The loop preserves duplicate-freeness of the closure. -/
theorem closureLoop_nodup (T : List Transition) :
    ∀ (f : Nat) (c st : List String), c.Nodup → (closureLoop T f c st).Nodup := by
  intro f
  induction f with
  | zero =>
      intro c st h
      cases st with
      | nil => simpa [closureLoop] using h
      | cons s rest => simpa [closureLoop] using h
  | succ f ih =>
      intro c st h
      cases st with
      | nil => simpa [closureLoop] using h
      | cons s rest =>
          simp only [closureLoop]
          exact ih _ _ (addTargets_nodup _ c rest h)

/-- Completeness of the worklist loop: starting from a state satisfying the
loop invariant with enough fuel, the result is closed under `λ`-edges. -/
theorem closureLoop_closed (T : List Transition) :
    ∀ (f : Nat) (c st : List String), ClosureInv T c st →
      st.length + cands T c ≤ f → Closed T (closureLoop T f c st) := by
  intro f
  induction f with
  | zero =>
      intro c st hinv hm
      cases st with
      | nil =>
          simp only [closureLoop]
          intro t ht hsym hfrom
          exact hinv _ hfrom (by simp) t ht hsym rfl
      | cons s rest => simp at hm
  | succ f ih =>
      intro c st hinv hm
      cases st with
      | nil =>
          simp only [closureLoop]
          intro t ht hsym hfrom
          exact hinv _ hfrom (by simp) t ht hsym rfl
      | cons s rest =>
          simp only [closureLoop]
          set targets := ((T.filter (fun u => u.from' == s && u.symbol == "λ")).map
            (fun u => u.to')) with htargets
          refine ih _ _ ?_ ?_
          · intro x hx hnx t ht hsym hfrom
            have hxc : x ∈ c := by
              rcases addTargets_closure_src targets c rest x hx with hxc | hxt
              · exact hxc
              · by_cases hxc2 : x ∈ c
                · exact hxc2
                · exact absurd (addTargets_new_on_stack targets c rest x hx hxc2) hnx
            by_cases hxs : x = s
            · subst hxs
              exact addTargets_mem_targets targets c rest _
                (mem_targets_of_lam T x t ht hsym hfrom)
            · have hxrest : x ∉ rest := fun hr =>
                hnx (addTargets_stack_sub targets c rest x hr)
              have hxst : x ∉ s :: rest := by
                intro hmem
                rcases List.mem_cons.mp hmem with h1 | h1
                · exact hxs h1
                · exact hxrest h1
              exact addTargets_sub targets c rest _ (hinv x hxc hxst t ht hsym hfrom)
          · have := addTargets_measure T targets c rest (targets_sub_lam T s)
            simp only [List.length_cons] at hm
            omega

/-- The loop leaves an already-closed closure untouched while draining the
stack. -/
theorem closureLoop_fixed (T : List Transition) :
    ∀ (st : List String) (f : Nat) (c : List String), Closed T c → (∀ x ∈ st, x ∈ c) →
      st.length ≤ f → closureLoop T f c st = c := by
  intro st
  induction st with
  | nil =>
      intro f c _ _ _
      cases f with
      | zero => simp [closureLoop]
      | succ f => simp [closureLoop]
  | cons s rest ih =>
      intro f c hclosed hmem hf
      cases f with
      | zero => simp at hf
      | succ f =>
          simp only [closureLoop]
          rw [addTargets_fixed _ c rest (fun x hx => by
            rcases List.mem_map.mp hx with ⟨t, htf, rfl⟩
            rcases List.mem_filter.mp htf with ⟨htT, hb⟩
            simp only [Bool.and_eq_true, beq_iff_eq] at hb
            exact hclosed t htT hb.2 (hb.1 ▸ hmem s (List.mem_cons_self _ _)))]
          exact ih f c hclosed (fun x hx => hmem x (List.mem_cons_of_mem _ hx))
            (by simpa using Nat.le_of_succ_le_succ (by simpa using hf))

/-- Unfolding `setAddL` when the element is already present. -/
theorem setAddL_mem {l : List String} {x : String} (h : x ∈ l) : setAddL l x = l := by
  simp [setAddL, h]

/-- Unfolding `setAddL` when the element is new. -/
theorem setAddL_new {l : List String} {x : String} (h : x ∉ l) : setAddL l x = l ++ [x] := by
  simp [setAddL, h]

/-- `jsSetOf` never produces duplicates. -/
theorem jsSetOf_nodup (l : List String) : (jsSetOf l).Nodup := by
  suffices h : ∀ (l acc : List String), acc.Nodup → (l.foldl setAddL acc).Nodup from
    h l [] (by simp)
  intro l
  induction l with
  | nil => intro acc h; simpa using h
  | cons x xs ih =>
      intro acc h
      by_cases hc : x ∈ acc
      · rw [List.foldl_cons, setAddL_mem hc]
        exact ih acc h
      · rw [List.foldl_cons, setAddL_new hc]
        refine ih _ ?_
        rw [List.nodup_append]
        refine ⟨h, by simp, ?_⟩
        intro a ha hax
        simp only [List.mem_singleton] at hax
        subst hax
        exact hc ha

/-- `jsSetOf` is the identity on duplicate-free lists. -/
theorem jsSetOf_self (l : List String) (h : l.Nodup) : jsSetOf l = l := by
  suffices hgen : ∀ (l acc : List String), (acc ++ l).Nodup → l.foldl setAddL acc = acc ++ l by
    simpa using hgen l [] (by simpa using h)
  intro l
  induction l with
  | nil => intro acc _; simp
  | cons x xs ih =>
      intro acc hnd
      have hx : x ∉ acc := by
        rw [List.nodup_append] at hnd
        intro hmem
        exact hnd.2.2 hmem (List.mem_cons_self _ _)
      rw [List.foldl_cons, setAddL_new hx, ih (acc ++ [x]) (by simpa using hnd)]
      simp

/-- C8: `epsilonClosure` is idempotent — applying it to an already-computed
closure returns the same list. -/
theorem c8_epsilonClosure_idempotent (S : List String) (T : List Transition) :
    epsilonClosure (epsilonClosure S T) T = epsilonClosure S T := by
  have hcands : cands T (jsSetOf S) ≤ T.length := by
    unfold cands
    calc ((lamTargets T).filter fun x => !((jsSetOf S).contains x)).length
        ≤ (lamTargets T).length := List.length_filter_le _ _
      _ ≤ T.length := by
          unfold lamTargets
          rw [List.length_map]
          exact List.length_filter_le _ _
  have hC_nodup : (epsilonClosure S T).Nodup := by
    unfold epsilonClosure
    exact closureLoop_nodup T _ _ _ (jsSetOf_nodup S)
  have hC_closed : Closed T (epsilonClosure S T) := by
    unfold epsilonClosure
    refine closureLoop_closed T _ _ _ ?_ ?_
    · intro x hx hnx
      exact absurd (List.mem_reverse.mpr hx) hnx
    · rw [List.length_reverse]
      omega
  have key : ∀ c : List String, c.Nodup → Closed T c → epsilonClosure c T = c := by
    intro c hnd hcl
    show closureLoop T ((jsSetOf c).length + T.length) (jsSetOf c) (jsSetOf c).reverse = c
    rw [jsSetOf_self c hnd]
    exact closureLoop_fixed T _ _ _ hcl (fun x hx => List.mem_reverse.mp hx)
      (by rw [List.length_reverse]; omega)
  exact key _ hC_nodup hC_closed

/-! ### Shape of the `nfaLambdaToNFA` output, leading to C5 -/

/-- Transitions added by the `reachable.forEach` fold carry the symbol being
processed. -/
theorem addNewTrans_fold_src (sid sym : String) :
    ∀ (rs : List String) (acc : List Transition), ∀ t ∈ rs.foldl (addNewTrans sid sym) acc,
      t ∈ acc ∨ t.symbol = sym := by
  intro rs
  induction rs with
  | nil => intro acc t ht; exact Or.inl ht
  | cons r rest ih =>
      intro acc t ht
      rcases ih (addNewTrans sid sym acc r) t ht with h | h
      · by_cases hc :
          (acc.any fun u => u.from' == sid && u.to' == r && u.symbol == sym) = true
        · rw [addNewTrans, if_pos hc] at h
          exact Or.inl h
        · rw [addNewTrans, if_neg hc] at h
          rcases List.mem_append.mp h with h1 | h1
          · exact Or.inl h1
          · simp only [List.mem_singleton] at h1
            subst h1
            exact Or.inr rfl
      · exact Or.inr h

/-- Transitions added by the `alphabet.forEach` fold carry an alphabet
symbol. -/
theorem alphabet_fold_src (T : List Transition) (cl : List String) (sid : String) :
    ∀ (syms : List String) (acc : List Transition),
      ∀ t ∈ syms.foldl (fun acc2 symbol =>
          (reachFor T cl symbol).foldl (addNewTrans sid symbol) acc2) acc,
        t ∈ acc ∨ ∃ sym ∈ syms, t.symbol = sym := by
  intro syms
  induction syms with
  | nil => intro acc t ht; exact Or.inl ht
  | cons sym rest ih =>
      intro acc t ht
      rcases ih _ t ht with h | h
      · rcases addNewTrans_fold_src sid sym _ acc t h with h1 | h1
        · exact Or.inl h1
        · exact Or.inr ⟨sym, List.mem_cons_self _ _, h1⟩
      · rcases h with ⟨s2, hs2, hsym⟩
        exact Or.inr ⟨s2, List.mem_cons_of_mem _ hs2, hsym⟩

/-- Transitions produced by the full state fold carry an alphabet symbol. -/
theorem states_fold_src (T : List Transition) (alphabet : List String) :
    ∀ (sts : List State) (acc : List Transition),
      ∀ t ∈ sts.foldl (fun acc state =>
          alphabet.foldl (fun acc2 symbol =>
            (reachFor T (epsilonClosure [state.id] T) symbol).foldl
              (addNewTrans state.id symbol) acc2) acc) acc,
        t ∈ acc ∨ ∃ sym ∈ alphabet, t.symbol = sym := by
  intro sts
  induction sts with
  | nil => intro acc t ht; exact Or.inl ht
  | cons st rest ih =>
      intro acc t ht
      rcases ih _ t ht with h | h
      · exact alphabet_fold_src T (epsilonClosure [st.id] T) st.id alphabet acc t h
      · exact Or.inr h

/-- The transition list of `nfaLambdaToNFA`, written as the explicit fold. -/
theorem nfaLambdaToNFA_transitions_eq (a : Automaton) :
    (nfaLambdaToNFA a).transitions =
      a.states.foldl (fun acc state =>
        a.alphabet.foldl (fun acc2 symbol =>
          (reachFor a.transitions (epsilonClosure [state.id] a.transitions) symbol).foldl
            (addNewTrans state.id symbol) acc2) acc) [] := rfl

/-- C5: for an input automaton whose alphabet does not contain `λ`,
`nfaLambdaToNFA` produces no `λ`-labelled transition, keeps the alphabet, and
keeps the state ids and `isStart` flags; only `isAccept` may change, becoming
true exactly when the state was accepting or an accept state lies in its
epsilon closure. -/
theorem c5_nfaLambdaToNFA_shape (a : Automaton) (h : "λ" ∉ a.alphabet) :
    (∀ t ∈ (nfaLambdaToNFA a).transitions, t.symbol ≠ "λ") ∧
    (nfaLambdaToNFA a).alphabet = a.alphabet ∧
    (nfaLambdaToNFA a).states.map (fun s => s.id) = a.states.map (fun s => s.id) ∧
    (nfaLambdaToNFA a).states.map (fun s => s.isStart) = a.states.map (fun s => s.isStart) ∧
    List.Forall₂ (fun s s' =>
        s'.isAccept = (s.isAccept || acceptInClosure a.states a.transitions s.id))
      a.states (nfaLambdaToNFA a).states := by
  refine ⟨?_, rfl, ?_, ?_, ?_⟩
  · intro t ht heq
    rw [nfaLambdaToNFA_transitions_eq] at ht
    rcases states_fold_src a.transitions a.alphabet a.states [] t ht with h1 | h1
    · cases h1
    · rcases h1 with ⟨sym, hsym, hts⟩
      rw [heq] at hts
      exact h (hts ▸ hsym)
  · show (a.states.map _).map _ = _
    rw [List.map_map]
    rfl
  · show (a.states.map _).map _ = _
    rw [List.map_map]
    rfl
  · show List.Forall₂ _ a.states (a.states.map _)
    rw [List.forall₂_map_right_iff]
    rw [List.forall₂_same]
    intro s _
    rfl

/-- C5 witness: a concrete NFA-λ with a `λ`-edge and a one-letter alphabet. -/
theorem c5_nfaLambdaToNFA_shape_witness :
    ("λ" ∉ (⟨[⟨"s0", true, false⟩, ⟨"s1", false, true⟩],
        [⟨"s0", "s1", "λ"⟩, ⟨"s1", "s1", "a"⟩], ["a"]⟩ : Automaton).alphabet) ∧
    ((∀ t ∈ (nfaLambdaToNFA ⟨[⟨"s0", true, false⟩, ⟨"s1", false, true⟩],
        [⟨"s0", "s1", "λ"⟩, ⟨"s1", "s1", "a"⟩], ["a"]⟩).transitions, t.symbol ≠ "λ") ∧
      (nfaLambdaToNFA ⟨[⟨"s0", true, false⟩, ⟨"s1", false, true⟩],
        [⟨"s0", "s1", "λ"⟩, ⟨"s1", "s1", "a"⟩], ["a"]⟩).alphabet = ["a"] ∧
      (nfaLambdaToNFA ⟨[⟨"s0", true, false⟩, ⟨"s1", false, true⟩],
        [⟨"s0", "s1", "λ"⟩, ⟨"s1", "s1", "a"⟩], ["a"]⟩).states.map (fun s => s.id) =
        ["s0", "s1"] ∧
      (nfaLambdaToNFA ⟨[⟨"s0", true, false⟩, ⟨"s1", false, true⟩],
        [⟨"s0", "s1", "λ"⟩, ⟨"s1", "s1", "a"⟩], ["a"]⟩).states.map (fun s => s.isStart) =
        [true, false] ∧
      List.Forall₂ (fun (s s' : State) =>
          s'.isAccept = (s.isAccept ||
            acceptInClosure [⟨"s0", true, false⟩, ⟨"s1", false, true⟩]
              [⟨"s0", "s1", "λ"⟩, ⟨"s1", "s1", "a"⟩] s.id))
        ([⟨"s0", true, false⟩, ⟨"s1", false, true⟩] : List State)
        (nfaLambdaToNFA ⟨[⟨"s0", true, false⟩, ⟨"s1", false, true⟩],
          [⟨"s0", "s1", "λ"⟩, ⟨"s1", "s1", "a"⟩], ["a"]⟩).states) :=
  ⟨by decide, c5_nfaLambdaToNFA_shape _ (by decide)⟩

/-- C10 witness: the concrete start-less automaton rejects the empty string
and a nonempty string. -/
theorem c10_no_start_state_rejects_witness :
    (∀ s ∈ (⟨[⟨"p", false, true⟩], [⟨"p", "p", "a"⟩], ["a"]⟩ : Automaton).states,
        s.isStart = false) ∧
    validateString ⟨[⟨"p", false, true⟩], [⟨"p", "p", "a"⟩], ["a"]⟩ "a" = false :=
  ⟨by decide, c10_no_start_state_rejects _ "a" (by decide)⟩

/-! ### Injectivity of the canonical renaming, leading to C3 -/

/-- String append is left-cancellative. -/
theorem strAppendCancel (s a b : String) (h : s ++ a = s ++ b) : a = b := by
  rw [String.ext_iff] at h ⊢
  rw [String.data_append, String.data_append] at h
  exact List.append_cancel_left h

/-- `Nat.toDigitsCore` agrees with the mathematical digit expansion. -/
theorem toDigitsCore_eq_digits :
    ∀ (f n : Nat) (acc : List Char), n < f → 0 < n →
      Nat.toDigitsCore 10 f n acc =
        ((Nat.digits 10 n).reverse.map Nat.digitChar) ++ acc := by
  intro f
  induction f with
  | zero => intro n acc hf; omega
  | succ f ih =>
      intro n acc hf hn
      rw [Nat.toDigitsCore]
      have hd : Nat.digits 10 n = n % 10 :: Nat.digits 10 (n / 10) :=
        Nat.digits_def' (by norm_num) hn
      by_cases h10 : n / 10 = 0
      · simp [h10, hd]
      · rw [if_neg h10]
        have hlt : n / 10 < f := by
          have := Nat.div_lt_self hn (by norm_num : 1 < 10)
          omega
        rw [ih (n / 10) _ hlt (Nat.pos_of_ne_zero h10), hd]
        simp

/-- `Nat.repr` of a positive number spells its decimal digits. -/
theorem repr_eq_digits (n : Nat) (hn : 0 < n) :
    Nat.repr n = ((Nat.digits 10 n).reverse.map Nat.digitChar).asString := by
  unfold Nat.repr Nat.toDigits
  rw [toDigitsCore_eq_digits (n + 1) n [] (by omega) hn]
  simp

/-- `Nat.digitChar` is injective below ten. -/
theorem digitChar_inj_lt :
    ∀ d1 < 10, ∀ d2 < 10, Nat.digitChar d1 = Nat.digitChar d2 → d1 = d2 := by
  decide

/-- Mapping `Nat.digitChar` over digit lists is injective. -/
theorem map_digitChar_inj :
    ∀ (l1 l2 : List Nat), (∀ d ∈ l1, d < 10) → (∀ d ∈ l2, d < 10) →
      l1.map Nat.digitChar = l2.map Nat.digitChar → l1 = l2 := by
  intro l1
  induction l1 with
  | nil =>
      intro l2 _ _ h
      cases l2 with
      | nil => rfl
      | cons b bs => simp at h
  | cons a as ih =>
      intro l2 h1 h2 h
      cases l2 with
      | nil => simp at h
      | cons b bs =>
          simp only [List.map_cons, List.cons.injEq] at h
          have hab : a = b :=
            digitChar_inj_lt a (h1 a (List.mem_cons_self _ _)) b
              (h2 b (List.mem_cons_self _ _)) h.1
          rw [hab, ih bs (fun d hd => h1 d (List.mem_cons_of_mem _ hd))
            (fun d hd => h2 d (List.mem_cons_of_mem _ hd)) h.2]

/-- `Nat.repr` is injective. -/
theorem nat_repr_inj : ∀ m n : Nat, Nat.repr m = Nat.repr n → m = n := by
  have zero_case : ∀ n : Nat, 0 < n → Nat.repr n = "0" → False := by
    intro n hn h
    rw [repr_eq_digits n hn] at h
    have hrev : (Nat.digits 10 n).reverse.map Nat.digitChar = ['0'] := by
      simpa [List.asString, String.ext_iff] using h
    have hlen : (Nat.digits 10 n).reverse.length = 1 := by
      have := congrArg List.length hrev
      simpa using this
    rcases hrev2 : (Nat.digits 10 n).reverse with _ | ⟨d, rest⟩
    · rw [hrev2] at hlen
      simp at hlen
    · rw [hrev2] at hlen hrev
      simp at hlen
      rw [hlen] at hrev2 hrev
      simp only [List.map_cons, List.map_nil, List.cons.injEq] at hrev
      have hd10 : d < 10 := Nat.digits_lt_base (by norm_num)
        (List.mem_reverse.mp (by rw [hrev2]; exact List.mem_cons_self _ _))
      have hd0 : d = 0 := digitChar_inj_lt d hd10 0 (by norm_num) (by simpa using hrev.1)
      have hdig : Nat.digits 10 n = [d] := by
        have := congrArg List.reverse hrev2
        simpa using this
      have : n = 0 := by
        calc n = Nat.ofDigits 10 (Nat.digits 10 n) := (Nat.ofDigits_digits 10 n).symm
          _ = Nat.ofDigits 10 [d] := by rw [hdig]
          _ = 0 := by rw [hd0]; simp [Nat.ofDigits]
      omega
  intro m n h
  rcases Nat.eq_zero_or_pos m with rfl | hm
  · rcases Nat.eq_zero_or_pos n with rfl | hn
    · rfl
    · exact absurd h.symm (fun h2 => zero_case n hn h2)
  · rcases Nat.eq_zero_or_pos n with rfl | hn
    · exact absurd h (fun h2 => zero_case m hm h2)
    · rw [repr_eq_digits m hm, repr_eq_digits n hn] at h
      have hl : ((Nat.digits 10 m).reverse.map Nat.digitChar) =
          ((Nat.digits 10 n).reverse.map Nat.digitChar) := by
        simpa [List.asString, String.ext_iff] using h
      have hd : (Nat.digits 10 m).reverse = (Nat.digits 10 n).reverse :=
        map_digitChar_inj _ _
          (fun d hd => Nat.digits_lt_base (by norm_num) (List.mem_reverse.mp hd))
          (fun d hd => Nat.digits_lt_base (by norm_num) (List.mem_reverse.mp hd)) hl
      have hdig := List.reverse_inj.mp hd
      calc m = Nat.ofDigits 10 (Nat.digits 10 m) := (Nat.ofDigits_digits 10 m).symm
        _ = Nat.ofDigits 10 (Nat.digits 10 n) := by rw [hdig]
        _ = n := Nat.ofDigits_digits 10 n

/-- `hasKey` agrees with membership in the key list. -/
theorem hasKey_iff (m : List (String × State)) (k : String) :
    hasKey m k = true ↔ k ∈ keysOf m := by
  simp [hasKey, keysOf, List.any_eq_true, List.mem_map, beq_iff_eq]

/-- The key of a singleton subset with a nonempty id is that id. -/
theorem keyOf_singleton (x : String) (hx : x ≠ "") : keyOf [x] = x := by
  have hraw : keyOfRaw [x] = x := by
    unfold keyOfRaw sortJS joinComma
    simp [insertSorted, String.intercalate, String.intercalate.go]
  unfold keyOf
  rw [hraw]
  simp [hx]

/-- The raw key of a singleton subset is that id. -/
theorem keyOfRaw_singleton (x : String) : keyOfRaw [x] = x := by
  unfold keyOfRaw sortJS joinComma
  simp [insertSorted, String.intercalate, String.intercalate.go]

/-- `find?` over the renaming map locates a registered key, giving it a name
with an index at least the enumeration offset. -/
theorem find_renameMapping_mem :
    ∀ (ds : List (String × State)) (i : Nat) (k : String), k ∈ keysOf ds →
      ∃ j, i ≤ j ∧
        ((ds.enumFrom i).map (fun p => (p.2.1, "q" ++ toString p.1))).find?
          (fun p => p.1 == k) = some (k, "q" ++ toString j) := by
  intro ds
  induction ds with
  | nil => intro i k hk; simp [keysOf] at hk
  | cons hd rest ih =>
      intro i k hk
      rw [show (hd :: rest).enumFrom i = (i, hd) :: rest.enumFrom (i + 1) from by
        simp [List.enumFrom], List.map_cons]
      by_cases hkh : hd.1 = k
      · refine ⟨i, le_refl i, ?_⟩
        rw [List.find?_cons_of_pos _ (by simp [hkh])]
        rw [hkh]
      · have hk2 : k ∈ keysOf rest := by
          simp only [keysOf, List.map_cons, List.mem_cons] at hk
          rcases hk with h | h
          · exact absurd h.symm hkh
          · simpa [keysOf] using h
        rcases ih (i + 1) k hk2 with ⟨j, hij, hfind⟩
        refine ⟨j, by omega, ?_⟩
        rw [List.find?_cons_of_neg _ (by simp [hkh])]
        exact hfind

/-- Rename lookups of two distinct registered keys cannot agree (stated over
the mapping built from any enumeration offset). -/
theorem renameLook_inj_aux :
    ∀ (ds : List (String × State)) (i : Nat) (k1 k2 : String),
      (keysOf ds).Nodup → k1 ∈ keysOf ds → k2 ∈ keysOf ds →
      ((((ds.enumFrom i).map (fun p => (p.2.1, "q" ++ toString p.1))).find?
          (fun p => p.1 == k1)).map (fun p => p.2)) =
      ((((ds.enumFrom i).map (fun p => (p.2.1, "q" ++ toString p.1))).find?
          (fun p => p.1 == k2)).map (fun p => p.2)) →
      k1 = k2 := by
  intro ds
  induction ds with
  | nil => intro i k1 k2 _ hk1; simp [keysOf] at hk1
  | cons hd rest ih =>
      intro i k1 k2 hnd hk1 hk2 h
      have hnd2 : (keysOf rest).Nodup ∧ hd.1 ∉ keysOf rest := by
        simp only [keysOf, List.map_cons, List.nodup_cons] at hnd
        exact ⟨hnd.2, hnd.1⟩
      rw [show (hd :: rest).enumFrom i = (i, hd) :: rest.enumFrom (i + 1) from by
        simp [List.enumFrom], List.map_cons] at h
      by_cases h1 : hd.1 = k1
      · by_cases h2 : hd.1 = k2
        · rw [← h1, ← h2]
        · have hk2r : k2 ∈ keysOf rest := by
            simp only [keysOf, List.map_cons, List.mem_cons] at hk2
            rcases hk2 with hx | hx
            · exact absurd hx.symm h2
            · simpa [keysOf] using hx
          rcases find_renameMapping_mem rest (i + 1) k2 hk2r with ⟨j, hij, hfind⟩
          rw [List.find?_cons_of_pos _ (by simp [h1]),
            List.find?_cons_of_neg _ (by simp [h2]), hfind] at h
          simp only [Option.map_some', Option.some.injEq] at h
          have := nat_repr_inj i j (strAppendCancel "q" _ _ h)
          omega
      · by_cases h2 : hd.1 = k2
        · have hk1r : k1 ∈ keysOf rest := by
            simp only [keysOf, List.map_cons, List.mem_cons] at hk1
            rcases hk1 with hx | hx
            · exact absurd hx.symm h1
            · simpa [keysOf] using hx
          rcases find_renameMapping_mem rest (i + 1) k1 hk1r with ⟨j, hij, hfind⟩
          rw [List.find?_cons_of_neg _ (by simp [h1]),
            List.find?_cons_of_pos _ (by simp [h2]), hfind] at h
          simp only [Option.map_some', Option.some.injEq] at h
          have := nat_repr_inj j i (strAppendCancel "q" _ _ h)
          omega
        · have hk1r : k1 ∈ keysOf rest := by
            simp only [keysOf, List.map_cons, List.mem_cons] at hk1
            rcases hk1 with hx | hx
            · exact absurd hx.symm h1
            · simpa [keysOf] using hx
          have hk2r : k2 ∈ keysOf rest := by
            simp only [keysOf, List.map_cons, List.mem_cons] at hk2
            rcases hk2 with hx | hx
            · exact absurd hx.symm h2
            · simpa [keysOf] using hx
          rw [List.find?_cons_of_neg _ (by simp [h1]),
            List.find?_cons_of_neg _ (by simp [h2])] at h
          exact ih (i + 1) k1 k2 hnd2.1 hk1r hk2r h

/-- The canonical renaming is injective on registered keys. -/
theorem renameLook_inj (ds : List (String × State)) (hnd : (keysOf ds).Nodup)
    (k1 k2 : String) (h1 : k1 ∈ keysOf ds) (h2 : k2 ∈ keysOf ds)
    (h : renameLook ds k1 = renameLook ds k2) : k1 = k2 := by
  rcases find_renameMapping_mem ds 0 k1 h1 with ⟨j1, _, hf1⟩
  rcases find_renameMapping_mem ds 0 k2 h2 with ⟨j2, _, hf2⟩
  unfold renameLook renameMapping at h
  rw [show ds.enum = ds.enumFrom 0 from rfl] at h
  rw [hf1, hf2] at h
  simp only [Option.map_some', Option.getD_some] at h
  apply renameLook_inj_aux ds 0 k1 k2 hnd h1 h2
  rw [hf1, hf2]
  simpa using h

/-- `dfaStep` with an empty successor subset changes nothing. -/
theorem dfaStep_empty (states : List State) (transitions : List Transition)
    (currentSet : List String) (currentKey : String) (ds : List (String × State))
    (dt : List Transition) (q : List (List String)) (symbol : String)
    (h : nextSetFor transitions currentSet symbol = []) :
    dfaStep states transitions currentSet currentKey (ds, dt, q) symbol = (ds, dt, q) := by
  unfold dfaStep
  simp [h]

/-- `dfaStep` with a nonempty successor subset whose key is unregistered:
register, enqueue, and emit the transition. -/
theorem dfaStep_new (states : List State) (transitions : List Transition)
    (currentSet : List String) (currentKey : String) (ds : List (String × State))
    (dt : List Transition) (q : List (List String)) (symbol : String)
    (hne : nextSetFor transitions currentSet symbol ≠ [])
    (hk : keyOf (nextSetFor transitions currentSet symbol) ∉ keysOf ds) :
    dfaStep states transitions currentSet currentKey (ds, dt, q) symbol =
      (ds ++ [(keyOf (nextSetFor transitions currentSet symbol),
        ⟨keyOf (nextSetFor transitions currentSet symbol), false,
         anyAccept states (nextSetFor transitions currentSet symbol)⟩)],
       dt ++ [⟨currentKey, keyOf (nextSetFor transitions currentSet symbol), symbol⟩],
       q ++ [nextSetFor transitions currentSet symbol]) := by
  unfold dfaStep
  have hkey : hasKey ds (keyOf (nextSetFor transitions currentSet symbol)) = false := by
    rcases hh : hasKey ds (keyOf (nextSetFor transitions currentSet symbol)) with _ | _
    · rfl
    · exact absurd ((hasKey_iff _ _).mp hh) hk
  have hpos : 0 < (nextSetFor transitions currentSet symbol).length :=
    List.length_pos.mpr hne
  simp [hkey, hpos]

/-- `dfaStep` with a nonempty successor subset whose key is already
registered: only emit the transition. -/
theorem dfaStep_seen (states : List State) (transitions : List Transition)
    (currentSet : List String) (currentKey : String) (ds : List (String × State))
    (dt : List Transition) (q : List (List String)) (symbol : String)
    (hne : nextSetFor transitions currentSet symbol ≠ [])
    (hk : keyOf (nextSetFor transitions currentSet symbol) ∈ keysOf ds) :
    dfaStep states transitions currentSet currentKey (ds, dt, q) symbol =
      (ds, dt ++ [⟨currentKey, keyOf (nextSetFor transitions currentSet symbol), symbol⟩], q) := by
  unfold dfaStep
  have hkey : hasKey ds (keyOf (nextSetFor transitions currentSet symbol)) = true :=
    (hasKey_iff _ _).mpr hk
  have hpos : 0 < (nextSetFor transitions currentSet symbol).length :=
    List.length_pos.mpr hne
  simp [hkey, hpos]

/-- The per-symbol fold of the worklist body preserves the step invariant. -/
theorem foldl_dfaStep_inv (states : List State) (transitions : List Transition)
    (currentSet : List String) (currentKey : String) :
    ∀ (syms : List String), syms.Nodup →
    ∀ (ds : List (String × State)) (dt : List Transition) (q : List (List String)),
      DFAStepInv currentKey syms ds dt q →
      DFAStepInv currentKey []
        (syms.foldl (dfaStep states transitions currentSet currentKey) (ds, dt, q)).1
        (syms.foldl (dfaStep states transitions currentSet currentKey) (ds, dt, q)).2.1
        (syms.foldl (dfaStep states transitions currentSet currentKey) (ds, dt, q)).2.2 := by
  intro syms
  induction syms with
  | nil =>
      intro _ ds dt q hinv
      exact ⟨hinv.toDFALoopInv, hinv.curMem, hinv.curNotQueued, by simp⟩
  | cons a rest ih =>
      intro hnd ds dt q hinv
      have hndr : rest.Nodup := (List.nodup_cons.mp hnd).2
      have hanr : a ∉ rest := (List.nodup_cons.mp hnd).1
      rw [List.foldl_cons]
      by_cases hempty : nextSetFor transitions currentSet a = []
      · rw [dfaStep_empty states transitions currentSet currentKey ds dt q a hempty]
        exact ih hndr ds dt q ⟨hinv.toDFALoopInv, hinv.curMem, hinv.curNotQueued,
          fun t ht heq hm => hinv.freshSyms t ht heq (List.mem_cons_of_mem _ hm)⟩
      · by_cases hreg : keyOf (nextSetFor transitions currentSet a) ∈ keysOf ds
        · rw [dfaStep_seen states transitions currentSet currentKey ds dt q a hempty hreg]
          refine ih hndr _ _ _
            ⟨⟨hinv.keysNodup, hinv.queueKeys, hinv.queueNodup, ?_, ?_, ?_, ?_⟩,
             hinv.curMem, hinv.curNotQueued, ?_⟩
          · intro t ht
            rcases List.mem_append.mp ht with h1 | h1
            · exact hinv.transFrom t h1
            · simp only [List.mem_singleton] at h1
              subst h1
              exact hinv.curMem
          · intro t ht
            rcases List.mem_append.mp ht with h1 | h1
            · exact hinv.transTo t h1
            · simp only [List.mem_singleton] at h1
              subst h1
              exact hreg
          · intro t ht q2 hq2
            rcases List.mem_append.mp ht with h1 | h1
            · exact hinv.unprocessed t h1 q2 hq2
            · simp only [List.mem_singleton] at h1
              subst h1
              exact (hinv.curNotQueued q2 hq2).symm
          · rw [List.pairwise_append]
            refine ⟨hinv.det, by simp, ?_⟩
            intro t1 ht1 t2 ht2
            simp only [List.mem_singleton] at ht2
            subst ht2
            by_cases hf : t1.from' = currentKey
            · exact Or.inr fun he =>
                hinv.freshSyms t1 ht1 hf (he ▸ List.mem_cons_self _ _)
            · exact Or.inl hf
          · intro t ht heq
            rcases List.mem_append.mp ht with h1 | h1
            · exact fun hm => hinv.freshSyms t h1 heq (List.mem_cons_of_mem _ hm)
            · simp only [List.mem_singleton] at h1
              subst h1
              exact hanr
        · rw [dfaStep_new states transitions currentSet currentKey ds dt q a hempty hreg]
          have hkeys2 : keysOf (ds ++ [(keyOf (nextSetFor transitions currentSet a),
              ⟨keyOf (nextSetFor transitions currentSet a), false,
               anyAccept states (nextSetFor transitions currentSet a)⟩)]) =
              keysOf ds ++ [keyOf (nextSetFor transitions currentSet a)] := by
            simp [keysOf]
          refine ih hndr _ _ _ ⟨⟨?_, ?_, ?_, ?_, ?_, ?_, ?_⟩, ?_, ?_, ?_⟩
          · rw [hkeys2, List.nodup_append]
            refine ⟨hinv.keysNodup, by simp, ?_⟩
            intro x hx hx2
            simp only [List.mem_singleton] at hx2
            subst hx2
            exact hreg hx
          · intro q2 hq2
            rw [hkeys2]
            rcases List.mem_append.mp hq2 with h1 | h1
            · exact List.mem_append_left _ (hinv.queueKeys q2 h1)
            · simp only [List.mem_singleton] at h1
              subst h1
              exact List.mem_append_right _ (by simp)
          · rw [List.map_append, List.nodup_append]
            refine ⟨hinv.queueNodup, by simp, ?_⟩
            intro x hx hx2
            simp only [List.map_cons, List.map_nil, List.mem_singleton] at hx2
            subst hx2
            rcases List.mem_map.mp hx with ⟨q2, hq2, hkey⟩
            exact hreg (hkey ▸ hinv.queueKeys q2 hq2)
          · intro t ht
            rw [hkeys2]
            rcases List.mem_append.mp ht with h1 | h1
            · exact List.mem_append_left _ (hinv.transFrom t h1)
            · simp only [List.mem_singleton] at h1
              subst h1
              exact List.mem_append_left _ hinv.curMem
          · intro t ht
            rw [hkeys2]
            rcases List.mem_append.mp ht with h1 | h1
            · exact List.mem_append_left _ (hinv.transTo t h1)
            · simp only [List.mem_singleton] at h1
              subst h1
              exact List.mem_append_right _ (by simp)
          · intro t ht q2 hq2
            rcases List.mem_append.mp ht with h1 | h1
            · rcases List.mem_append.mp hq2 with h2 | h2
              · exact hinv.unprocessed t h1 q2 h2
              · simp only [List.mem_singleton] at h2
                subst h2
                exact fun he => hreg (he ▸ hinv.transFrom t h1)
            · simp only [List.mem_singleton] at h1
              subst h1
              rcases List.mem_append.mp hq2 with h2 | h2
              · exact (hinv.curNotQueued q2 h2).symm
              · simp only [List.mem_singleton] at h2
                subst h2
                exact fun he => hreg (he ▸ hinv.curMem)
          · rw [List.pairwise_append]
            refine ⟨hinv.det, by simp, ?_⟩
            intro t1 ht1 t2 ht2
            simp only [List.mem_singleton] at ht2
            subst ht2
            by_cases hf : t1.from' = currentKey
            · exact Or.inr fun he =>
                hinv.freshSyms t1 ht1 hf (he ▸ List.mem_cons_self _ _)
            · exact Or.inl hf
          · rw [hkeys2]
            exact List.mem_append_left _ hinv.curMem
          · intro q2 hq2
            rcases List.mem_append.mp hq2 with h1 | h1
            · exact hinv.curNotQueued q2 h1
            · simp only [List.mem_singleton] at h1
              subst h1
              exact fun he => hreg (he ▸ hinv.curMem)
          · intro t ht heq
            rcases List.mem_append.mp ht with h1 | h1
            · exact fun hm => hinv.freshSyms t h1 heq (List.mem_cons_of_mem _ hm)
            · simp only [List.mem_singleton] at h1
              subst h1
              exact hanr

/-- The worklist loop preserves the loop invariant and ends with an empty
queue's worth of obligations. -/
theorem dfaLoop_inv (states : List State) (transitions : List Transition)
    (alphabet : List String) (hA : alphabet.Nodup) :
    ∀ (fuel : Nat) (ds : List (String × State)) (dt : List Transition)
      (q : List (List String)), DFALoopInv ds dt q →
      DFALoopInv (dfaLoop states transitions alphabet fuel ds dt q).1
        (dfaLoop states transitions alphabet fuel ds dt q).2 [] := by
  have final : ∀ (ds : List (String × State)) (dt : List Transition)
      (q : List (List String)), DFALoopInv ds dt q → DFALoopInv ds dt [] := by
    intro ds dt q hinv
    exact ⟨hinv.keysNodup, by simp, by simp, hinv.transFrom, hinv.transTo, by simp, hinv.det⟩
  intro fuel
  induction fuel with
  | zero =>
      intro ds dt q hinv
      cases q with
      | nil =>
          simp only [dfaLoop]
          exact final ds dt [] hinv
      | cons cs rest =>
          simp only [dfaLoop]
          exact final ds dt _ hinv
  | succ f ih =>
      intro ds dt q hinv
      cases q with
      | nil =>
          simp only [dfaLoop]
          exact final ds dt [] hinv
      | cons cs rest =>
          simp only [dfaLoop]
          have hstep : DFAStepInv (keyOf cs) alphabet ds dt rest := by
            refine ⟨⟨hinv.keysNodup, ?_, ?_, hinv.transFrom, hinv.transTo, ?_, hinv.det⟩,
              ?_, ?_, ?_⟩
            · exact fun q2 hq2 => hinv.queueKeys q2 (List.mem_cons_of_mem _ hq2)
            · have h2 := hinv.queueNodup
              rw [List.map_cons] at h2
              exact (List.nodup_cons.mp h2).2
            · exact fun t ht q2 hq2 => hinv.unprocessed t ht q2 (List.mem_cons_of_mem _ hq2)
            · exact hinv.queueKeys cs (List.mem_cons_self _ _)
            · intro q2 hq2 heq
              have h2 := hinv.queueNodup
              rw [List.map_cons] at h2
              exact (List.nodup_cons.mp h2).1 (heq ▸ List.mem_map.mpr ⟨q2, hq2, rfl⟩)
            · intro t ht heq
              exact absurd heq (hinv.unprocessed t ht cs (List.mem_cons_self _ _))
          have hres := foldl_dfaStep_inv states transitions cs (keyOf cs) alphabet hA
            ds dt rest hstep
          exact ih _ _ _ hres.toDFALoopInv

/-- The transition list of `nfaToDFA` when a start state is found, written as
the explicit loop plus renaming. -/
theorem nfaToDFA_transitions_some (nfa : Automaton) (startState : State)
    (hfind : nfa.states.find? (fun s => s.isStart) = some startState) :
    (nfaToDFA nfa).transitions =
      (renameAll
        (dfaLoop nfa.states nfa.transitions nfa.alphabet
          (2 ^ (nfa.transitions.length + nfa.states.length + 1) + 1)
          [(keyOfRaw [startState.id],
            ⟨if keyOfRaw [startState.id] == "" then "∅" else keyOfRaw [startState.id], true,
             anyAccept nfa.states [startState.id]⟩)] [] [[startState.id]]).1
        (dfaLoop nfa.states nfa.transitions nfa.alphabet
          (2 ^ (nfa.transitions.length + nfa.states.length + 1) + 1)
          [(keyOfRaw [startState.id],
            ⟨if keyOfRaw [startState.id] == "" then "∅" else keyOfRaw [startState.id], true,
             anyAccept nfa.states [startState.id]⟩)] [] [[startState.id]]).2).2 := by
  unfold nfaToDFA
  rw [hfind]

/-- The renaming pass preserves pairwise `(from, symbol)` distinctness when the
keys are duplicate-free and every `from` is a registered key. -/
theorem renameAll_pairwise (ds : List (String × State)) (dt : List Transition)
    (hnd : (keysOf ds).Nodup)
    (hfrom : ∀ t ∈ dt, t.from' ∈ keysOf ds)
    (hdet : dt.Pairwise distinctFS) :
    ((renameAll ds dt).2).Pairwise
      (fun t1 t2 => t1.from' ≠ t2.from' ∨ t1.symbol ≠ t2.symbol) := by
  unfold renameAll
  rw [List.pairwise_map]
  refine List.Pairwise.imp_of_mem ?_ hdet
  intro t1 t2 ht1 ht2 hr
  rcases hr with hf | hs
  · exact Or.inl fun he =>
      hf (renameLook_inj ds hnd _ _ (hfrom t1 ht1) (hfrom t2 ht2) he)
  · exact Or.inr hs

/-- C3 (counterexample): the claim quantifies over every input automaton, but
an automaton whose alphabet list repeats a symbol makes `nfaToDFA` emit the
same `(from, symbol)` transition twice, so the result is not deterministic. -/
theorem c3_nfaToDFA_deterministic_counterexample :
    ¬ (nfaToDFA ⟨[⟨"s", true, false⟩, ⟨"t", false, true⟩],
        [⟨"s", "t", "a"⟩], ["a", "a"]⟩).transitions.Pairwise
        (fun t1 t2 => t1.from' ≠ t2.from' ∨ t1.symbol ≠ t2.symbol) := by
  decide

/-- C3 (amended): for every input automaton whose alphabet has no duplicate
entries and whose start state (if any) has a nonempty id, the automaton
returned by `nfaToDFA` is deterministic: no two transitions share
`(from, symbol)`. -/
theorem c3_nfaToDFA_deterministic (nfa : Automaton) (hA : nfa.alphabet.Nodup)
    (hS : ∀ s ∈ nfa.states, s.isStart = true → s.id ≠ "") :
    (nfaToDFA nfa).transitions.Pairwise
      (fun t1 t2 => t1.from' ≠ t2.from' ∨ t1.symbol ≠ t2.symbol) := by
  rcases hfind : nfa.states.find? (fun s => s.isStart) with _ | startState
  · unfold nfaToDFA
    rw [hfind]
    simp
  · have hmem : startState ∈ nfa.states := List.mem_of_find?_eq_some hfind
    have hstart : startState.isStart = true := by
      have := List.find?_some hfind
      simpa using this
    have hid : startState.id ≠ "" := hS startState hmem hstart
    rw [nfaToDFA_transitions_some nfa startState hfind]
    have hinit : DFALoopInv
        [(keyOfRaw [startState.id],
          ⟨if keyOfRaw [startState.id] == "" then "∅" else keyOfRaw [startState.id], true,
           anyAccept nfa.states [startState.id]⟩)] [] [[startState.id]] := by
      refine ⟨by simp [keysOf], ?_, by simp, by simp, by simp, by simp, by simp⟩
      intro q2 hq2
      simp only [List.mem_singleton] at hq2
      subst hq2
      rw [keyOf_singleton _ hid]
      simp [keysOf, keyOfRaw_singleton]
    have hloop := dfaLoop_inv nfa.states nfa.transitions nfa.alphabet hA
      (2 ^ (nfa.transitions.length + nfa.states.length + 1) + 1) _ _ _ hinit
    exact renameAll_pairwise _ _ hloop.keysNodup hloop.transFrom hloop.det

/-- C3 witness: a concrete two-state NFA with a duplicate-free alphabet and
nonempty ids, whose DFA is deterministic. -/
theorem c3_nfaToDFA_deterministic_witness :
    ((⟨[⟨"s0", true, false⟩, ⟨"s1", false, true⟩], [⟨"s0", "s1", "a"⟩], ["a"]⟩ :
        Automaton).alphabet.Nodup ∧
      (∀ s ∈ (⟨[⟨"s0", true, false⟩, ⟨"s1", false, true⟩], [⟨"s0", "s1", "a"⟩], ["a"]⟩ :
          Automaton).states, s.isStart = true → s.id ≠ "")) ∧
    (nfaToDFA ⟨[⟨"s0", true, false⟩, ⟨"s1", false, true⟩],
        [⟨"s0", "s1", "a"⟩], ["a"]⟩).transitions.Pairwise
      (fun t1 t2 => t1.from' ≠ t2.from' ∨ t1.symbol ≠ t2.symbol) :=
  ⟨⟨by decide, by decide⟩,
   c3_nfaToDFA_deterministic _ (by decide) (by decide)⟩

end AutomataLab
